import Mathlib

/-!
Shallow embedding of src/hashtable.c (lib9p): a fixed-bucket chained hash
table keyed by a 32-bit hash, together with its cursor iterator and the
remove-at-cursor operation.

Modelling conventions:
- A chain node (struct ht_item) carries a numeric node id `hti_id` that
  models its heap address; node identity matters for the iterator cursor
  (a pointer to a node) and for remove-at-cursor.  Fresh ids are drawn
  from the allocator counter `ht_free_id` (a model of malloc returning a
  fresh address).
- The stored value `hti_data` is a numeric model of the opaque value
  pointer; 0 models NULL.
- Each bucket (struct ht_entry, a TAILQ head) is a list of nodes in chain
  order; TAILQ_INSERT_TAIL is list append, TAILQ_REMOVE removes the node
  with the given identity.
- The pthread rwlock calls bracket each operation and have no effect on
  the sequential semantics embedded here; error returns (-1 with errno)
  are modelled by `Except HtError`, and since a C error return leaves the
  table untouched, the caller of the model keeps the unchanged table on
  `.error`.
-/

/-- Model of struct ht_item: one chain node, with its identity (address),
the stored 32-bit hash and the stored value pointer (0 models NULL). -/
structure HtItem where
  hti_id : Nat
  hti_hash : Nat
  hti_data : Nat
deriving DecidableEq

/-- Model of struct ht: bucket count `ht_nentries`, bucket array
`ht_entries` (one chain per bucket), and the allocator counter
`ht_free_id` handing out fresh node ids. -/
structure Ht where
  ht_nentries : Nat
  ht_entries : List (List HtItem)
  ht_free_id : Nat
deriving DecidableEq

/-- Model of struct ht_iter: the current slot `htit_slot` and the cursor
`htit_cursor`, the id of the node the cursor points at (`none` = NULL).
The parent pointer is passed explicitly to each operation. -/
structure HtIter where
  htit_slot : Nat
  htit_cursor : Option Nat
deriving DecidableEq

/-- The recoverable errno values the table reports. -/
inductive HtError where
  | EEXIST
  | ENOENT
  | EINVAL
deriving DecidableEq

/-- The chain of bucket `i` (reading h.ht_entries[i]; an out-of-range read,
which is undefined in C and unreachable for well-formed tables, yields the
empty chain). -/
def chainAt (h : Ht) (i : Nat) : List HtItem :=
  h.ht_entries.getD i []

/-- ht_init (hashtable.c lines 38-50): `size` empty chains; the model also
starts the node-id allocator at 0. -/
def ht_init (size : Nat) : Ht :=
  { ht_nentries := size
    ht_entries := List.replicate size []
    ht_free_id := 0 }

/-- ht_find (lines 75-94): read the chain of bucket hash mod nentries and
return the data of the first node whose stored hash equals the query, or
the initial `result = NULL` (modelled 0) when no node matches. -/
def ht_find (h : Ht) (hash : Nat) : Nat :=
  match (chainAt h (hash % h.ht_nentries)).find? (fun it => it.hti_hash == hash) with
  | some it => it.hti_data
  | none => 0

/-- ht_add (lines 96-120): scan the chain of bucket hash mod nentries for
a node with the same hash; on a match fail with EEXIST (errno) and no
mutation; otherwise allocate a fresh node holding (hash, value) and append
it at the tail of the chain. -/
def ht_add (h : Ht) (hash value : Nat) : Except HtError Ht :=
  if (chainAt h (hash % h.ht_nentries)).any (fun it => it.hti_hash == hash) then
    .error .EEXIST
  else
    .ok { h with
          ht_entries :=
            h.ht_entries.set (hash % h.ht_nentries)
              (chainAt h (hash % h.ht_nentries) ++ [⟨h.ht_free_id, hash, value⟩])
          ht_free_id := h.ht_free_id + 1 }

/-- The TAILQ_FOREACH_SAFE loop of ht_remove (lines 132-139): remove the
first node of the chain whose hash matches, returning the shortened chain,
or `none` when no node matches. -/
def removeFirstHash : List HtItem → Nat → Option (List HtItem)
  | [], _ => none
  | it :: rest, hash =>
    if it.hti_hash == hash then some rest
    else (removeFirstHash rest hash).map (fun c => it :: c)

/-- ht_remove (lines 122-144): unlink and free the first node with the
given hash in the chain of bucket hash mod nentries, or fail with ENOENT
(no mutation). -/
def ht_remove (h : Ht) (hash : Nat) : Except HtError Ht :=
  match removeFirstHash (chainAt h (hash % h.ht_nentries)) hash with
  | some c => .ok { h with ht_entries := h.ht_entries.set (hash % h.ht_nentries) c }
  | none => .error .ENOENT

/-- TAILQ_REMOVE by node identity: drop the node with id `cid` from the
chain.  In C, removing a node that is not on the chain is undefined; the
model leaves the chain unchanged in that unreachable case. -/
def removeId : List HtItem → Nat → List HtItem
  | [], _ => []
  | it :: rest, cid =>
    if it.hti_id == cid then rest else it :: removeId rest cid

/-- ht_remove_at_iter (lines 146-162): if the cursor is NULL fail with
EINVAL; otherwise unlink the node the cursor points at from the chain of
the iterator slot and free it.  The C code never writes any iterator
field, so the iterator comes back exactly as it went in (its cursor still
holding the id of the now-freed node). -/
def ht_remove_at_iter (h : Ht) (it : HtIter) : Except HtError (Ht × HtIter) :=
  match it.htit_cursor with
  | none => .error .EINVAL
  | some cid =>
    .ok ({ h with
           ht_entries :=
             h.ht_entries.set it.htit_slot
               (removeId (chainAt h it.htit_slot) cid) },
         it)

/-- ht_iter (lines 164-172): slot 0, cursor at TAILQ_FIRST of bucket 0
(NULL when bucket 0 is empty). -/
def ht_iter (h : Ht) : HtIter :=
  { htit_slot := 0
    htit_cursor := (chainAt h 0).head?.map (fun it => it.hti_id) }

/-- The node stored under id `cid` on a chain (follows the cursor
pointer). -/
def itemOf (c : List HtItem) (cid : Nat) : Option HtItem :=
  c.find? (fun it => it.hti_id == cid)

/-- TAILQ_NEXT by node identity: the successor of node `cid` on the chain
(`none` when `cid` is the last node, or is absent). -/
def succAfter : List HtItem → Nat → Option HtItem
  | [], _ => none
  | it :: rest, cid =>
    if it.hti_id == cid then rest.head? else succAfter rest cid

/-- The retry loop of ht_next (lines 181-201).  One iteration: when slot
equals nentries, return NULL; when the cursor is NULL, advance the slot
and retry (note the source never resets the cursor to the first node of
the new slot); otherwise capture the cursor node, advance the cursor to
its TAILQ successor, and if that successor is NULL advance the slot and
retry (the source drops the captured node on this path: at `retry`,
`item` is reassigned from the now NULL cursor).  The fuel argument counts
loop iterations; nentries + 1 - slot bounds them because every retry
increments the slot.  The `itemOf = none` branch is a dangling cursor,
undefined behaviour in C (use after free), unreachable for iterators kept
in sync with the table. -/
def htNextAux (h : Ht) : Nat → Nat → Option Nat → HtIter × Option Nat
  | 0, slot, cursor => (⟨slot, cursor⟩, none)
  | fuel + 1, slot, cursor =>
    if slot = h.ht_nentries then (⟨slot, cursor⟩, none)
    else
      match cursor with
      | none => htNextAux h fuel (slot + 1) none
      | some cid =>
        match itemOf (chainAt h slot) cid with
        | none => (⟨slot, some cid⟩, none)
        | some it =>
          match succAfter (chainAt h slot) cid with
          | none => htNextAux h fuel (slot + 1) none
          | some nxt => (⟨slot, some nxt.hti_id⟩, some it.hti_data)

/-- ht_next (lines 174-202): run the retry loop from the iterator state;
returns the updated iterator and the captured data (`none` = NULL =
exhausted). -/
def ht_next (h : Ht) (it : HtIter) : HtIter × Option Nat :=
  htNextAux h (h.ht_nentries + 1 - it.htit_slot) it.htit_slot it.htit_cursor

/-- The per-chain loop of ht_destroy (lines 59-68): `hi` starts at
TAILQ_FIRST; each iteration advances `hi` to its TAILQ successor and
unlinks that node (TAILQ_REMOVE leaves the removed node link intact, so
the walk continues).  The head node is never unlinked, and the loop body
contains no free call, so no node is freed.  Returns (nodes unlinked,
nodes freed). -/
def destroyChain : List HtItem → List HtItem × List HtItem
  | [] => ([], [])
  | _hd :: rest => (rest, [])

/-- The heap effect of ht_destroy (lines 52-73): which item nodes are
freed (none: the loop only unlinks), which are unlinked, and that the
bucket array itself is freed. -/
structure DestroyEffect where
  itemsFreed : List HtItem
  itemsUnlinked : List HtItem
  bucketArrayFreed : Bool
deriving DecidableEq

/-- ht_destroy (lines 52-73): run the unlink loop over every chain, then
free the bucket array (and the lock).  No item node is ever passed to
free. -/
def ht_destroy (h : Ht) : DestroyEffect :=
  { itemsFreed := (h.ht_entries.map (fun c => (destroyChain c).2)).foldr
      (fun c acc => c ++ acc) []
    itemsUnlinked := (h.ht_entries.map (fun c => (destroyChain c).1)).foldr
      (fun c acc => c ++ acc) []
    bucketArrayFreed := true }

/-- Every item node currently linked into some chain of the table. -/
def allItems (h : Ht) : List HtItem :=
  h.ht_entries.foldr (fun c acc => c ++ acc) []

/-- Perform a sequence of ht_add calls, stopping at the first failure. -/
def addAll : Ht → List (Nat × Nat) → Except HtError Ht
  | h, [] => .ok h
  | h, (a, v) :: rest =>
    match ht_add h a v with
    | .ok h2 => addAll h2 rest
    | .error e => .error e

/-- Drive one iterator to exhaustion: repeatedly call ht_next, collecting
the returned values, until it reports NULL (fuel bounds the number of
calls). -/
def runIter (h : Ht) : Nat → HtIter → List Nat
  | 0, _ => []
  | fuel + 1, it =>
    match ht_next h it with
    | (it2, some v) => v :: runIter h fuel it2
    | (_, none) => []

/-- The structural well-formedness of a table: the bucket array has
exactly nentries chains, the bucket count is positive, every node sits in
the chain indexed by its hash mod nentries, and no chain holds two nodes
of the same hash. -/
structure HtInv (h : Ht) : Prop where
  len : h.ht_entries.length = h.ht_nentries
  pos : 0 < h.ht_nentries
  placed : ∀ i, ∀ a ∈ chainAt h i, a.hti_hash % h.ht_nentries = i
  uniq : ∀ i, (chainAt h i).Pairwise (fun a b => a.hti_hash ≠ b.hti_hash)

/-- Table states reachable from ht_init through successful ht_add,
ht_remove and ht_remove_at_iter calls.  The remove-at-iter step admits an
arbitrary iterator state, a superset of the iterator states the API can
produce, so the invariant theorem covers every API-produced iterator as
well. -/
inductive HtReachable : Ht → Prop where
  | init : ∀ n, 0 < n → HtReachable (ht_init n)
  | add : ∀ h hash v h2, HtReachable h → ht_add h hash v = .ok h2 → HtReachable h2
  | remove : ∀ h hash h2, HtReachable h → ht_remove h hash = .ok h2 → HtReachable h2
  | removeAt : ∀ h it h2 it2, HtReachable h →
      ht_remove_at_iter h it = .ok (h2, it2) → HtReachable h2

/-- The table built by ht_init 2 then adds of hashes 0, 1, 2 with values
7, 8, 9: bucket 0 chains hashes 0 and 2, bucket 1 chains hash 1. -/
def c1Table : Ht :=
  ⟨2, [[⟨0, 0, 7⟩, ⟨2, 2, 9⟩], [⟨1, 1, 8⟩]], 3⟩

/-- The table built by ht_init 1 then adds of hashes 0, 1 with values
5, 6: one bucket chaining both. -/
def c2Table : Ht :=
  ⟨1, [[⟨0, 0, 5⟩, ⟨1, 1, 6⟩]], 2⟩

/-- The c2 table after remove-at-cursor: the hash 1 node is gone. -/
def c2After : Ht :=
  ⟨1, [[⟨0, 0, 5⟩]], 2⟩

/-- The table built by ht_init 1 then one add of hash 0, value 5. -/
def c3Table : Ht :=
  ⟨1, [[⟨0, 0, 5⟩]], 1⟩

/-- The table built by ht_init 2 then adds of hashes 0, 2, 1 with values
5, 6, 7: bucket 0 chains hashes 0 and 2, bucket 1 chains hash 1. -/
def c4Table : Ht :=
  ⟨2, [[⟨0, 0, 5⟩, ⟨1, 2, 6⟩], [⟨2, 1, 7⟩]], 3⟩

theorem getD_set_general {α : Type} (l : List α) (i j : Nat) (x d : α) :
    (l.set i x).getD j d = if i = j ∧ i < l.length then x else l.getD j d := by
  induction l generalizing i j with
  | nil => simp
  | cons a t ih =>
    cases i with
    | zero =>
      cases j with
      | zero => simp
      | succ j => simp
    | succ i =>
      cases j with
      | zero => simp
      | succ j =>
        have h1 : ((a :: t).set (i + 1) x).getD (j + 1) d = (t.set i x).getD j d := rfl
        have h2 : (a :: t).getD (j + 1) d = t.getD j d := rfl
        rw [h1, ih, h2]
        have hiff : (i + 1 = j + 1 ∧ i + 1 < (a :: t).length) ↔
            (i = j ∧ i < t.length) := by
          simp only [List.length_cons]
          omega
        by_cases hc : i = j ∧ i < t.length
        · rw [if_pos hc, if_pos (hiff.mpr hc)]
        · rw [if_neg hc, if_neg (fun hcc => hc (hiff.mp hcc))]

theorem chainAt_mk (n : Nat) (es : List (List HtItem)) (f j : Nat) :
    chainAt ⟨n, es, f⟩ j = es.getD j [] := rfl

theorem getD_oob {α : Type} (l : List α) (i : Nat) (d : α) (h : l.length ≤ i) :
    l.getD i d = d := by
  induction l generalizing i with
  | nil => cases i <;> rfl
  | cons a t ih =>
    cases i with
    | zero => simp at h
    | succ i =>
      show t.getD i d = d
      refine ih i ?_
      simp only [List.length_cons] at h
      omega

theorem getD_replicate_empty (n i : Nat) :
    (List.replicate n ([] : List HtItem)).getD i [] = [] := by
  induction n generalizing i with
  | zero => simp
  | succ n ih =>
    cases i with
    | zero => simp [List.replicate_succ]
    | succ i => simp [List.replicate_succ, ih]

theorem chainAt_init (n i : Nat) : chainAt (ht_init n) i = [] := by
  rw [ht_init, chainAt_mk, getD_replicate_empty]

/-- Inversion of a successful ht_add: the target chain held no node of the
inserted hash, and the result table appends the fresh node at the tail of
that chain. -/
theorem ht_add_ok {h : Ht} {hash v : Nat} {h2 : Ht}
    (hadd : ht_add h hash v = .ok h2) :
    (∀ a ∈ chainAt h (hash % h.ht_nentries), a.hti_hash ≠ hash) ∧
    h2 = { h with
           ht_entries := h.ht_entries.set (hash % h.ht_nentries)
             (chainAt h (hash % h.ht_nentries) ++ [⟨h.ht_free_id, hash, v⟩])
           ht_free_id := h.ht_free_id + 1 } := by
  unfold ht_add at hadd
  by_cases hc : (chainAt h (hash % h.ht_nentries)).any (fun it => it.hti_hash == hash) = true
  · rw [if_pos hc] at hadd
    cases hadd
  · rw [if_neg hc] at hadd
    refine ⟨?_, ?_⟩
    · intro a ha hahash
      exact hc (List.any_eq_true.mpr ⟨a, ha, by simp [hahash]⟩)
    · injection hadd with he
      exact he.symm

theorem find?_append_of_none {p : HtItem → Bool} {l1 : List HtItem} (l2 : List HtItem)
    (hnone : ∀ a ∈ l1, ¬ p a = true) :
    (l1 ++ l2).find? p = l2.find? p := by
  induction l1 with
  | nil => simp
  | cons a t ih =>
    have ha : ¬ p a = true := hnone a (by simp)
    rw [List.cons_append, List.find?_cons_of_neg _ ha]
    exact ih (fun b hb => hnone b (by simp [hb]))

/-- After a successful ht_add of (hash, v), ht_find on that hash returns
v: the scan passes over the old chain (none of whose nodes carries the
hash) and stops at the appended node. -/
theorem find_after_add {h : Ht} {hash v : Nat} {h2 : Ht}
    (hlen : h.ht_entries.length = h.ht_nentries) (hpos : 0 < h.ht_nentries)
    (hadd : ht_add h hash v = .ok h2) :
    ht_find h2 hash = v := by
  obtain ⟨hno, rfl⟩ := ht_add_ok hadd
  have hlt : hash % h.ht_nentries < h.ht_entries.length := by
    rw [hlen]
    exact Nat.mod_lt _ hpos
  unfold ht_find
  rw [chainAt_mk, getD_set_general, if_pos ⟨rfl, hlt⟩,
    find?_append_of_none _ (fun a ha hpa => hno a ha (by simpa using hpa)),
    List.find?_cons_of_pos _ (by simp)]

theorem find_absent {t : Ht} {g : Nat}
    (habs : ∀ a ∈ chainAt t (g % t.ht_nentries), a.hti_hash ≠ g) :
    ht_find t g = 0 := by
  unfold ht_find
  rw [List.find?_eq_none.mpr (fun a ha => by simpa using habs a ha)]

theorem removeFirstHash_append_match {l : List HtItem} {it : HtItem} {hash : Nat}
    (hnone : ∀ a ∈ l, a.hti_hash ≠ hash) (hit : it.hti_hash = hash) :
    removeFirstHash (l ++ [it]) hash = some l := by
  induction l with
  | nil => simp [removeFirstHash, hit]
  | cons a t ih =>
    have ha : ¬ (a.hti_hash == hash) = true := by
      simpa using hnone a (by simp)
    rw [List.cons_append]
    unfold removeFirstHash
    rw [if_neg ha, ih (fun b hb => hnone b (by simp [hb]))]
    rfl

theorem removeFirstHash_none_of {l : List HtItem} {hash : Nat}
    (hnone : ∀ a ∈ l, a.hti_hash ≠ hash) :
    removeFirstHash l hash = none := by
  induction l with
  | nil => rfl
  | cons a t ih =>
    have ha : ¬ (a.hti_hash == hash) = true := by
      simpa using hnone a (by simp)
    unfold removeFirstHash
    rw [if_neg ha, ih (fun b hb => hnone b (by simp [hb]))]
    rfl

theorem removeFirstHash_sublist :
    ∀ (c : List HtItem) (hash : Nat) (c2 : List HtItem),
      removeFirstHash c hash = some c2 → c2.Sublist c := by
  intro c
  induction c with
  | nil =>
    intro hash c2 hc
    cases hc
  | cons a t ih =>
    intro hash c2 hc
    unfold removeFirstHash at hc
    by_cases hah : (a.hti_hash == hash) = true
    · rw [if_pos hah] at hc
      injection hc with he
      rw [← he]
      exact List.sublist_cons_self a t
    · rw [if_neg hah] at hc
      cases hmap : removeFirstHash t hash with
      | none =>
        rw [hmap] at hc
        cases hc
      | some t2 =>
        rw [hmap] at hc
        injection hc with he
        rw [← he]
        exact (ih hash t2 hmap).cons₂ a

theorem removeId_sublist (c : List HtItem) (cid : Nat) :
    (removeId c cid).Sublist c := by
  induction c with
  | nil => exact List.Sublist.refl []
  | cons a t ih =>
    unfold removeId
    by_cases hac : (a.hti_id == cid) = true
    · rw [if_pos hac]
      exact List.sublist_cons_self a t
    · rw [if_neg hac]
      exact ih.cons₂ a

/-- On a chain whose node ids are pairwise distinct, removing the node
with id `cid` leaves no node of that id on the chain. -/
theorem removeId_no_cid {c : List HtItem} {cid : Nat}
    (hp : c.Pairwise (fun a b => a.hti_id ≠ b.hti_id)) :
    ∀ a ∈ removeId c cid, a.hti_id ≠ cid := by
  induction c with
  | nil =>
    intro a ha
    cases ha
  | cons x t ih =>
    rcases List.pairwise_cons.mp hp with ⟨hx, ht⟩
    intro a ha
    unfold removeId at ha
    by_cases hxc : (x.hti_id == cid) = true
    · rw [if_pos hxc] at ha
      have hxid : x.hti_id = cid := by simpa using hxc
      intro hacid
      exact hx a ha (by rw [hxid, hacid])
    · rw [if_neg hxc] at ha
      rcases List.mem_cons.mp ha with rfl | ha2
      · simpa using hxc
      · exact ih ht a ha2

theorem htInv_init (n : Nat) (hn : 0 < n) : HtInv (ht_init n) := by
  refine ⟨by simp [ht_init], hn, ?_, ?_⟩
  · intro i a ha
    rw [chainAt_init] at ha
    cases ha
  · intro i
    rw [chainAt_init]
    exact List.Pairwise.nil

theorem htInv_add {h : Ht} {hash v : Nat} {h2 : Ht} (inv : HtInv h)
    (hadd : ht_add h hash v = .ok h2) : HtInv h2 := by
  obtain ⟨hno, rfl⟩ := ht_add_ok hadd
  have hlt : hash % h.ht_nentries < h.ht_entries.length := by
    rw [inv.len]
    exact Nat.mod_lt _ inv.pos
  refine ⟨by simpa using inv.len, inv.pos, ?_, ?_⟩
  · intro i a ha
    rw [chainAt_mk, getD_set_general] at ha
    show a.hti_hash % h.ht_nentries = i
    by_cases hcond : hash % h.ht_nentries = i ∧ hash % h.ht_nentries < h.ht_entries.length
    · rw [if_pos hcond] at ha
      rw [← hcond.1]
      rcases List.mem_append.mp ha with h1 | h1
      · exact inv.placed _ a h1
      · have hav : a = ⟨h.ht_free_id, hash, v⟩ := by simpa using h1
        rw [hav]
    · rw [if_neg hcond] at ha
      exact inv.placed i a ha
  · intro i
    rw [chainAt_mk, getD_set_general]
    by_cases hcond : hash % h.ht_nentries = i ∧ hash % h.ht_nentries < h.ht_entries.length
    · rw [if_pos hcond, List.pairwise_append]
      refine ⟨inv.uniq _, List.pairwise_singleton _ _, ?_⟩
      intro a ha b hb
      have hbv : b = ⟨h.ht_free_id, hash, v⟩ := by simpa using hb
      rw [hbv]
      exact hno a ha
    · rw [if_neg hcond]
      exact inv.uniq i

/-- Replacing one chain by a sublist of itself preserves the table
invariant: both placement and hash uniqueness are monotone under chain
shrinking.  This covers ht_remove (which drops one matching node) and
ht_remove_at_iter (which drops the cursor node). -/
theorem htInv_set_sublist {h : Ht} {slot : Nat} {c : List HtItem}
    (inv : HtInv h) (hsub : c.Sublist (chainAt h slot)) :
    HtInv { h with ht_entries := h.ht_entries.set slot c } := by
  refine ⟨by simpa using inv.len, inv.pos, ?_, ?_⟩
  · intro i a ha
    rw [chainAt_mk, getD_set_general] at ha
    show a.hti_hash % h.ht_nentries = i
    by_cases hcond : slot = i ∧ slot < h.ht_entries.length
    · rw [if_pos hcond] at ha
      rw [← hcond.1]
      exact inv.placed slot a (hsub.subset ha)
    · rw [if_neg hcond] at ha
      exact inv.placed i a ha
  · intro i
    rw [chainAt_mk, getD_set_general]
    by_cases hcond : slot = i ∧ slot < h.ht_entries.length
    · rw [if_pos hcond]
      exact (inv.uniq slot).sublist hsub
    · rw [if_neg hcond]
      exact inv.uniq i

theorem htInv_remove {h : Ht} {hash : Nat} {h2 : Ht} (inv : HtInv h)
    (hrem : ht_remove h hash = .ok h2) : HtInv h2 := by
  unfold ht_remove at hrem
  cases hmatch : removeFirstHash (chainAt h (hash % h.ht_nentries)) hash with
  | none =>
    rw [hmatch] at hrem
    cases hrem
  | some c =>
    rw [hmatch] at hrem
    injection hrem with he
    rw [← he]
    exact htInv_set_sublist inv (removeFirstHash_sublist _ _ _ hmatch)

theorem htInv_remove_at_iter {h : Ht} {it : HtIter} {h2 : Ht} {it2 : HtIter}
    (inv : HtInv h) (hrem : ht_remove_at_iter h it = .ok (h2, it2)) :
    HtInv h2 := by
  unfold ht_remove_at_iter at hrem
  cases hcur : it.htit_cursor with
  | none =>
    rw [hcur] at hrem
    cases hrem
  | some cid =>
    rw [hcur] at hrem
    injection hrem with he
    have he2 : h2 = { h with
        ht_entries := h.ht_entries.set it.htit_slot
          (removeId (chainAt h it.htit_slot) cid) } :=
      (congrArg Prod.fst he).symm
    rw [he2]
    exact htInv_set_sublist inv (removeId_sublist _ _)

theorem htReachable_inv {h : Ht} (hr : HtReachable h) : HtInv h := by
  induction hr with
  | init n hn => exact htInv_init n hn
  | add h hash v h2 _ hadd ih => exact htInv_add ih hadd
  | remove h hash h2 _ hrem ih => exact htInv_remove ih hrem
  | removeAt h it h2 it2 _ hrem ih => exact htInv_remove_at_iter ih hrem

/-- C1: iteration is incomplete.  With bucket count 2 and three entries of
distinct hashes 0, 1, 2 (values 7, 9 in bucket 0 and 8 in bucket 1), a
full iteration from ht_iter yields only [7]: ht_next drops the captured
last node of bucket 0 when its cursor reaches the chain end, and after
advancing the slot it never points the cursor at the first node of the
next bucket, so the value 9 (last of bucket 0) and the value 8 (bucket 1)
are never returned, contradicting the claim that all N inserted values
are yielded exactly once. -/
theorem C1_iteration_incomplete :
    addAll (ht_init 2) [(0, 7), (1, 8), (2, 9)] = .ok c1Table ∧
    (allItems c1Table).map HtItem.hti_data = [7, 9, 8] ∧
    runIter c1Table 10 (ht_iter c1Table) = [7] :=
  ⟨rfl, rfl, rfl⟩

/-- C2: remove-at-cursor removes the wrong node.  With bucket count 1 and
entries (hash 0, value 5), (hash 1, value 6), the first ht_next returns 5
(stored under hash 0) and leaves the cursor on the successor node of hash
1; the following ht_remove_at_iter succeeds but unlinks that successor:
afterwards find 0 still returns 5 and find 1 reports absent, contradicting
the claim that exactly the just-returned entry (hash 0) is removed. -/
theorem C2_remove_at_iter_removes_successor :
    addAll (ht_init 1) [(0, 5), (1, 6)] = .ok c2Table ∧
    ht_next c2Table (ht_iter c2Table) = (⟨0, some 1⟩, some 5) ∧
    ht_remove_at_iter c2Table ⟨0, some 1⟩ = .ok (c2After, ⟨0, some 1⟩) ∧
    ht_find c2After 0 = 5 ∧
    ht_find c2After 1 = 0 :=
  ⟨rfl, rfl, rfl, rfl, rfl⟩

/-- C3: remove-at-cursor on a freshly begun iterator does not fail.  With
bucket count 1 and one entry (hash 0, value 5), ht_iter points the cursor
at that first node, so ht_remove_at_iter before any ht_next call succeeds
and unlinks the entry (find 0 then reports absent), contradicting the
claim that it fails with EINVAL and leaves the table unchanged. -/
theorem C3_fresh_remove_at_iter_succeeds :
    addAll (ht_init 1) [(0, 5)] = .ok c3Table ∧
    ht_iter c3Table = ⟨0, some 0⟩ ∧
    ht_remove_at_iter c3Table (ht_iter c3Table) = .ok (⟨1, [[]], 1⟩, ⟨0, some 0⟩) ∧
    ht_find (⟨1, [[]], 1⟩ : Ht) 0 = 0 :=
  ⟨rfl, rfl, rfl, rfl⟩

/-- C4: destroy frees no item node.  With bucket count 2 and three
entries, the destroy loop of hashtable.c walks each chain from the
successor of the head onward and only unlinks nodes (its body has no free
call, and the head is never even unlinked), so the set of item nodes
passed to free is empty while the table still holds three nodes: every
entry node leaks, contradicting the claim that destroy frees every node
of every chain. -/
theorem C4_destroy_frees_no_items :
    addAll (ht_init 2) [(0, 5), (2, 6), (1, 7)] = .ok c4Table ∧
    (ht_destroy c4Table).itemsFreed = [] ∧
    (ht_destroy c4Table).itemsUnlinked = [⟨1, 2, 6⟩] ∧
    allItems c4Table = [⟨0, 0, 5⟩, ⟨1, 2, 6⟩, ⟨2, 1, 7⟩] :=
  ⟨rfl, rfl, rfl, rfl⟩

/-- C5: round trip.  On any table whose bucket array matches its bucket
count, a successful ht_add of (hash, v) makes an immediately following
ht_find of that hash return v. -/
theorem C5_round_trip (h : Ht) (hash v : Nat) (h2 : Ht)
    (hlen : h.ht_entries.length = h.ht_nentries) (hpos : 0 < h.ht_nentries)
    (hadd : ht_add h hash v = .ok h2) :
    ht_find h2 hash = v :=
  find_after_add hlen hpos hadd

theorem C5_round_trip_witness :
    ht_find (⟨4, [[], [], [⟨0, 6, 9⟩], []], 1⟩ : Ht) 6 = 9 :=
  C5_round_trip (ht_init 4) 6 9 _ rfl (by decide) rfl

/-- C6: uniqueness.  After a successful ht_add of (hash, v), a second
ht_add of the same hash fails with EEXIST (the model returns the error
without building a new table, mirroring the C path that unlocks and
returns -1 before any mutation) and ht_find still returns v. -/
theorem C6_duplicate_add (h : Ht) (hash v v2 : Nat) (h2 : Ht)
    (hlen : h.ht_entries.length = h.ht_nentries) (hpos : 0 < h.ht_nentries)
    (hadd : ht_add h hash v = .ok h2) :
    ht_add h2 hash v2 = .error .EEXIST ∧ ht_find h2 hash = v := by
  refine ⟨?_, find_after_add hlen hpos hadd⟩
  obtain ⟨hno, rfl⟩ := ht_add_ok hadd
  have hlt : hash % h.ht_nentries < h.ht_entries.length := by
    rw [hlen]
    exact Nat.mod_lt _ hpos
  unfold ht_add
  rw [if_pos]
  rw [chainAt_mk, getD_set_general, if_pos ⟨rfl, hlt⟩]
  exact List.any_eq_true.mpr ⟨⟨h.ht_free_id, hash, v⟩, by simp, by simp⟩

theorem C6_duplicate_add_witness :
    ht_add (⟨4, [[], [], [⟨0, 6, 9⟩], []], 1⟩ : Ht) 6 11 = .error .EEXIST ∧
    ht_find (⟨4, [[], [], [⟨0, 6, 9⟩], []], 1⟩ : Ht) 6 = 9 :=
  C6_duplicate_add (ht_init 4) 6 9 11 _ rfl (by decide) rfl

/-- C7: remove correctness.  After a successful ht_add of (hash, v), a
ht_remove of that hash succeeds; on the resulting table ht_find reports
absent (NULL) and a second ht_remove fails with ENOENT (the model returns
the error without building a new table, mirroring the C path that unlocks
and returns -1 with no mutation). -/
theorem C7_remove_correctness (h : Ht) (hash v : Nat) (h2 : Ht)
    (hlen : h.ht_entries.length = h.ht_nentries) (hpos : 0 < h.ht_nentries)
    (hadd : ht_add h hash v = .ok h2) :
    ∃ h3, ht_remove h2 hash = .ok h3 ∧ ht_find h3 hash = 0 ∧
      ht_remove h3 hash = .error .ENOENT := by
  obtain ⟨hno, rfl⟩ := ht_add_ok hadd
  have hlt : hash % h.ht_nentries < h.ht_entries.length := by
    rw [hlen]
    exact Nat.mod_lt _ hpos
  have hlt2 : hash % h.ht_nentries <
      (h.ht_entries.set (hash % h.ht_nentries)
        (chainAt h (hash % h.ht_nentries) ++ [⟨h.ht_free_id, hash, v⟩])).length := by
    simpa using hlt
  refine ⟨⟨h.ht_nentries,
      (h.ht_entries.set (hash % h.ht_nentries)
        (chainAt h (hash % h.ht_nentries) ++ [⟨h.ht_free_id, hash, v⟩])).set
        (hash % h.ht_nentries) (chainAt h (hash % h.ht_nentries)),
      h.ht_free_id + 1⟩, ?_, ?_, ?_⟩
  · unfold ht_remove
    dsimp only
    rw [chainAt_mk, getD_set_general, if_pos ⟨rfl, hlt⟩,
      removeFirstHash_append_match hno rfl]
  · apply find_absent
    dsimp only
    rw [chainAt_mk, getD_set_general, if_pos ⟨rfl, hlt2⟩]
    exact hno
  · unfold ht_remove
    dsimp only
    rw [chainAt_mk, getD_set_general, if_pos ⟨rfl, hlt2⟩,
      removeFirstHash_none_of hno]

theorem C7_remove_correctness_witness :
    ∃ h3, ht_remove (⟨3, [[], [⟨0, 4, 9⟩], []], 1⟩ : Ht) 4 = .ok h3 ∧
      ht_find h3 4 = 0 ∧ ht_remove h3 4 = .error .ENOENT :=
  C7_remove_correctness (ht_init 3) 4 9 _ rfl (by decide) rfl

/-- C8: structural invariants.  Every table reachable from ht_init by
successful ht_add, ht_remove and ht_remove_at_iter calls keeps every node
in exactly one chain, the one indexed by its hash mod nentries (two
chains containing the same node must be the same chain), and no chain
ever holds two nodes of the same hash. -/
theorem C8_structural_invariants (h : Ht) (hr : HtReachable h) :
    (∀ i, ∀ a ∈ chainAt h i, a.hti_hash % h.ht_nentries = i) ∧
    (∀ i j, ∀ a, a ∈ chainAt h i → a ∈ chainAt h j → i = j) ∧
    (∀ i, (chainAt h i).Pairwise fun a b => a.hti_hash ≠ b.hti_hash) := by
  have inv := htReachable_inv hr
  refine ⟨inv.placed, ?_, inv.uniq⟩
  intro i j a hai haj
  rw [← inv.placed i a hai, ← inv.placed j a haj]

theorem C8_structural_invariants_witness :
    (∀ i, ∀ a ∈ chainAt (⟨2, [[], [⟨0, 5, 7⟩]], 1⟩ : Ht) i,
      a.hti_hash % (⟨2, [[], [⟨0, 5, 7⟩]], 1⟩ : Ht).ht_nentries = i) ∧
    (∀ i j, ∀ a, a ∈ chainAt (⟨2, [[], [⟨0, 5, 7⟩]], 1⟩ : Ht) i →
      a ∈ chainAt (⟨2, [[], [⟨0, 5, 7⟩]], 1⟩ : Ht) j → i = j) ∧
    (∀ i, (chainAt (⟨2, [[], [⟨0, 5, 7⟩]], 1⟩ : Ht) i).Pairwise
      fun a b => a.hti_hash ≠ b.hti_hash) :=
  C8_structural_invariants ⟨2, [[], [⟨0, 5, 7⟩]], 1⟩
    (HtReachable.add (ht_init 2) 5 7 _ (HtReachable.init 2 (by decide)) rfl)

/-- C9: a stored NULL value is indistinguishable from absence.  ht_add of
(hash, NULL) succeeds, yet ht_find then returns NULL for that hash, the
same result ht_find gives for any hash g with no node in its bucket: the
two lookups are observationally identical. -/
theorem C9_null_value_indistinguishable (h : Ht) (hash g : Nat) (h2 : Ht)
    (hlen : h.ht_entries.length = h.ht_nentries) (hpos : 0 < h.ht_nentries)
    (hadd : ht_add h hash 0 = .ok h2)
    (habs : ∀ a ∈ chainAt h2 (g % h2.ht_nentries), a.hti_hash ≠ g) :
    ht_find h2 hash = 0 ∧ ht_find h2 g = 0 ∧ ht_find h2 hash = ht_find h2 g := by
  have h1 : ht_find h2 hash = 0 := find_after_add hlen hpos hadd
  have h2f : ht_find h2 g = 0 := find_absent habs
  exact ⟨h1, h2f, by rw [h1, h2f]⟩

theorem C9_null_value_witness :
    ht_find (⟨2, [[⟨0, 0, 0⟩], []], 1⟩ : Ht) 0 = 0 ∧
    ht_find (⟨2, [[⟨0, 0, 0⟩], []], 1⟩ : Ht) 1 = 0 ∧
    ht_find (⟨2, [[⟨0, 0, 0⟩], []], 1⟩ : Ht) 0 =
      ht_find (⟨2, [[⟨0, 0, 0⟩], []], 1⟩ : Ht) 1 :=
  C9_null_value_indistinguishable (ht_init 2) 0 1 _ rfl (by decide) rfl (by decide)

/-- C10: a successful remove-at-cursor leaves the cursor dangling.  When
the cursor holds a node id cid, which sits on the chain of the iterator
slot (its ids pairwise distinct) and on no other chain, the call returns
the iterator completely unchanged, cursor still holding cid, while cid is
gone from every chain of the resulting table: a following ht_next would
start from a node no longer on any chain (freed memory) rather than from
a live entry. -/
theorem C10_cursor_dangles (h : Ht) (it : HtIter) (cid : Nat)
    (hc : it.htit_cursor = some cid)
    (huniq : (chainAt h it.htit_slot).Pairwise (fun a b => a.hti_id ≠ b.hti_id))
    (helse : ∀ j, j ≠ it.htit_slot → ∀ a ∈ chainAt h j, a.hti_id ≠ cid)
    (h2 : Ht) (it2 : HtIter)
    (hrem : ht_remove_at_iter h it = .ok (h2, it2)) :
    it2 = it ∧ it2.htit_cursor = some cid ∧
    ∀ j, ∀ a ∈ chainAt h2 j, a.hti_id ≠ cid := by
  unfold ht_remove_at_iter at hrem
  rw [hc] at hrem
  injection hrem with he
  have heh : h2 = { h with
      ht_entries := h.ht_entries.set it.htit_slot
        (removeId (chainAt h it.htit_slot) cid) } :=
    (congrArg Prod.fst he).symm
  have heit : it2 = it := (congrArg Prod.snd he).symm
  refine ⟨heit, by rw [heit, hc], ?_⟩
  intro j a ha
  rw [heh, chainAt_mk, getD_set_general] at ha
  by_cases hcond : it.htit_slot = j ∧ it.htit_slot < h.ht_entries.length
  · rw [if_pos hcond] at ha
    exact removeId_no_cid huniq a ha
  · rw [if_neg hcond] at ha
    by_cases hj : j = it.htit_slot
    · rw [hj] at ha
      have hoob : ¬ it.htit_slot < h.ht_entries.length := fun hlt =>
        hcond ⟨hj.symm, hlt⟩
      rw [getD_oob _ _ _ (Nat.le_of_not_lt hoob)] at ha
      cases ha
    · exact helse j hj a ha

theorem C10_cursor_dangles_witness :
    (⟨0, some 1⟩ : HtIter) = ⟨0, some 1⟩ ∧
    (⟨0, some 1⟩ : HtIter).htit_cursor = some 1 ∧
    ∀ j, ∀ a ∈ chainAt (⟨1, [[⟨0, 3, 5⟩]], 2⟩ : Ht) j, a.hti_id ≠ 1 :=
  C10_cursor_dangles ⟨1, [[⟨0, 3, 5⟩, ⟨1, 4, 6⟩]], 2⟩ ⟨0, some 1⟩ 1 rfl
    (by decide) (by
      intro j hj a ha
      cases j with
      | zero => exact absurd rfl hj
      | succ n =>
        simp [chainAt] at ha)
    ⟨1, [[⟨0, 3, 5⟩]], 2⟩ ⟨0, some 1⟩ rfl
